import Mathlib

/-!
Verification development for the complex spherical-harmonic transform core of
`plotGWB/skymaps.py`.

The module extends a real-valued-only spherical-harmonic transform primitive
(healpy, an external collaborator reached only through its interface) into a
complex-valued transform:

  * `cmplx_map_2_full_alm` : complex map -> full (positive and negative m)
    coefficient set,
  * `full_alm_2_cmplx_map` : full coefficient set -> complex map,
  * `full_alm_2_Cl`        : full coefficient set -> angular power spectrum,
  * `syn_full_alm` / `syn_cmplx_map` : random realizations from a spectrum.

Shallow embedding conventions:
  * machine floats are modelled by exact rationals; complex values by `Cx`,
    a pair of rationals;
  * a pixel entry of a complex map is a `CVal`, whose real and imaginary
    components are rationals extended with the IEEE non-finite values
    `nan` and `inf` (the sign of an infinity is irrelevant here);
  * a pandas `Series` keyed by the (l, m) MultiIndex is a list of
    key/value pairs; label-aligned arithmetic is lookup by key;
  * the external healpy primitives (`map2alm`, `alm2map`, `synalm`) are
    parameters of the embedded functions.  `map2alm`/`synalm` outputs are
    index-keyed half coefficient sets (functions of l and m, read only at the
    `Alm.getlm` keys, exactly as the source pairs them with `getlm`);
    `alm2map` input is the positional array the source passes (`.values`,
    m-ascending healpy order).  The two `hp.synalm` calls in `syn_full_alm`
    draw from the global random stream, modelled by a draw index (0 for the
    real component, 1 for the imaginary component).
-/

/-- A real floating-point value as seen by the analysis code: either a finite
value (modelled exactly by a rational) or one of the IEEE non-finite values. -/
inductive RVal where
  | fin (q : ℚ)
  | nan
  | inf
  deriving DecidableEq, Repr

/-- `np.isnan` on a real value. -/
def RVal.isnan : RVal → Bool
  | .nan => true
  | _ => false

/-- `np.isfinite` on a real value. -/
def RVal.isfin : RVal → Bool
  | .fin _ => true
  | _ => false

/-- The rational carried by a finite value (0 for non-finite values; only ever
used on finite values). -/
def RVal.rat : RVal → ℚ
  | .fin q => q
  | _ => 0

/-- One pixel of a complex map: a complex floating-point value. -/
@[ext]
structure CVal where
  re : RVal
  im : RVal
  deriving DecidableEq, Repr

/-- `np.isnan` on a complex value: true when either component is NaN. -/
def isnanC (c : CVal) : Bool := c.re.isnan || c.im.isnan

/-- `np.isfinite` on a complex value: both components finite. -/
def isfiniteC (c : CVal) : Bool := c.re.isfin && c.im.isfin

/-- An exact complex number (the model of a finite complex float). -/
@[ext]
structure Cx where
  re : ℚ
  im : ℚ
  deriving DecidableEq, Repr

namespace Cx

instance : Zero Cx := ⟨⟨0, 0⟩⟩
instance : One Cx := ⟨⟨1, 0⟩⟩
instance : Add Cx := ⟨fun x y => ⟨x.re + y.re, x.im + y.im⟩⟩
instance : Neg Cx := ⟨fun x => ⟨-x.re, -x.im⟩⟩
instance : Sub Cx := ⟨fun x y => ⟨x.re - y.re, x.im - y.im⟩⟩
instance : Mul Cx := ⟨fun x y => ⟨x.re * y.re - x.im * y.im, x.re * y.im + x.im * y.re⟩⟩

/-- Complex conjugation. -/
def conj (x : Cx) : Cx := ⟨x.re, -x.im⟩

/-- The imaginary unit `1j`. -/
def I : Cx := ⟨0, 1⟩

/-- Embedding of a real scalar. -/
def ofRat (q : ℚ) : Cx := ⟨q, 0⟩

end Cx

/-- The finite complex number denoted by a finite complex float. -/
def CVal.toCx (c : CVal) : Cx := ⟨c.re.rat, c.im.rat⟩

/-- The sign `(-1)**m` appearing in every conjugate relation. -/
def neg1pow (m : ℕ) : ℚ := if m % 2 = 0 then 1 else -1

/-- `hp.Alm.getlm(lmax)`: the (l, m) pairs of the half coefficient set in
healpy order (m-major: for each m from 0 to lmax, l runs from m to lmax). -/
def getlm (lmax : ℕ) : List (ℕ × ℕ) :=
  (List.range (lmax + 1)).flatMap fun m =>
    (List.range (lmax + 1 - m)).map fun k => (m + k, m)

/-- A pandas `Series` of complex values keyed by the (l, m) MultiIndex. -/
abbrev AlmSeries := List ((ℕ × ℤ) × Cx)

/-- Label lookup in a series (the value at a key; 0 when the key is absent —
only ever used on series that do carry the key). -/
def seriesGet (s : AlmSeries) (k : ℕ × ℤ) : Cx :=
  match s.find? (fun kv => decide (kv.1 = k)) with
  | some kv => kv.2
  | none => 0

/-- `sort_index(level='l')` key order: lexicographic, degree l first. -/
def llLe (a b : ℕ × ℤ) : Prop := a.1 < b.1 ∨ (a.1 = b.1 ∧ a.2 ≤ b.2)

instance : DecidableRel llLe := fun a b => by unfold llLe; exact inferInstance

/-- `sort_index(level='m')` key order: lexicographic, order m first. -/
def mlLe (a b : ℕ × ℤ) : Prop := a.2 < b.2 ∨ (a.2 = b.2 ∧ a.1 ≤ b.1)

instance : DecidableRel mlLe := fun a b => by unfold mlLe; exact inferInstance

/-- Comparison of series rows by `llLe` on the key. -/
def rowLL (a b : (ℕ × ℤ) × Cx) : Prop := llLe a.1 b.1

instance : DecidableRel rowLL := fun a b => by unfold rowLL; exact inferInstance

/-- Comparison of series rows by `mlLe` on the key. -/
def rowML (a b : (ℕ × ℤ) × Cx) : Prop := mlLe a.1 b.1

instance : DecidableRel rowML := fun a b => by unfold rowML; exact inferInstance

instance : IsTotal ((ℕ × ℤ) × Cx) rowML :=
  ⟨fun a b => by unfold rowML mlLe; omega⟩

instance : IsTrans ((ℕ × ℤ) × Cx) rowML :=
  ⟨fun a b c hab hbc => by unfold rowML mlLe at hab hbc ⊢; omega⟩

/-- `Series.sort_index(level='l')` (degree-major order). -/
def sortByL (s : AlmSeries) : AlmSeries := List.insertionSort rowLL s

/-- `Series.sort_index(level='m')` (order-major order). -/
def sortByM (s : AlmSeries) : AlmSeries := List.insertionSort rowML s

/-- The interface of `hp.map2alm`: a masked real map (mask flag and value per
pixel) and lmax, to a half coefficient set read at the `getlm` keys. -/
abbrev Map2Alm := List (Bool × RVal) → ℕ → ℕ → ℕ → Cx

/-- The interface of `hp.alm2map`: a positional half-alm array (healpy
m-ascending order), nside and the optional lmax, to a real map. -/
abbrev Alm2Map := List Cx → ℕ → Option ℕ → List ℚ

/-- The interface of `hp.synalm`: a draw from the global random stream (the
first argument indexes the draw), given a spectrum and lmax, produces a half
coefficient set read at the `getlm` keys. -/
abbrev SynAlm := ℕ → List ℚ → ℕ → ℕ → ℕ → Cx

/-- Mask construction in `cmplx_map_2_full_alm` (line `mask =
np.isnan(residuals)`): one flag per pixel of the input complex map. -/
def buildMask (residuals : List CVal) : List Bool := residuals.map isnanC

/-- The positive-m rows of a full series from a half coefficient set
(`pd.Series(data=..., index=pos_lm_idx)`). -/
def posSeries (h : ℕ → ℕ → Cx) (lmax : ℕ) : AlmSeries :=
  (getlm lmax).map fun p => ((p.1, (p.2 : ℤ)), h p.1 p.2)

/-- The negative-m rows built by the conjugate relation
`a_{l,-m} = (-1)^m conj(a_{l,m})` (`np.conj(alm)*sign`, index `(l, -m)`). -/
def negSeries (h : ℕ → ℕ → Cx) (lmax : ℕ) : AlmSeries :=
  (getlm lmax).map fun p =>
    ((p.1, -(p.2 : ℤ)), Cx.ofRat (neg1pow p.2) * Cx.conj (h p.1 p.2))

/-- Expansion of one half coefficient set into a full series: positive rows,
mirrored negative rows with the duplicate m = 0 row dropped
(`drop([0], level='m')`), concatenated and sorted by degree
(lines 251-257 and 259-263 of `skymaps.py`). -/
def assembleFull (h : ℕ → ℕ → Cx) (lmax : ℕ) : AlmSeries :=
  sortByL (posSeries h lmax ++ (negSeries h lmax).filter fun kv => decide (kv.1.2 ≠ 0))

/-- `cmplx_map_2_full_alm(residuals, lmax)`: full coefficient set of a complex
map.  The NaN mask is applied to both the real-part and the imaginary-part
transforms; each half set is expanded to a full series; the two are combined
label-aligned as `alm_real + 1j*alm_imag`. -/
def cmplx_map_2_full_alm (map2alm : Map2Alm) (residuals : List CVal) (lmax : ℕ) :
    AlmSeries :=
  let mask := buildMask residuals
  let real_alm := map2alm (mask.zip (residuals.map CVal.re)) lmax
  let imag_alm := map2alm (mask.zip (residuals.map CVal.im)) lmax
  let alm_real := assembleFull real_alm lmax
  let alm_imag := assembleFull imag_alm lmax
  alm_real.map fun kv => (kv.1, kv.2 + Cx.I * seriesGet alm_imag kv.1)

/-- The real-component coefficients derived in `full_alm_2_cmplx_map`:
`re_alm = 0.5*(alm + (-1)**abs(m) * conj(a_{l,-m}))`. -/
def re_alm_of (a : ℕ → ℤ → Cx) (l : ℕ) (m : ℤ) : Cx :=
  Cx.ofRat (1/2) * (a l m + Cx.ofRat (neg1pow m.natAbs) * Cx.conj (a l (-m)))

/-- The imaginary-component coefficients derived in `full_alm_2_cmplx_map`:
`im_alm = 0.5j*(-alm + (-1)**abs(m) * conj(a_{l,-m}))`. -/
def im_alm_of (a : ℕ → ℤ → Cx) (l : ℕ) (m : ℤ) : Cx :=
  Cx.ofRat (1/2) * Cx.I * (-a l m + Cx.ofRat (neg1pow m.natAbs) * Cx.conj (a l (-m)))

/-- `full_alm_2_cmplx_map(alm, nside=32, lmax=None)`: split a full coefficient
set into the derived real/imaginary components, keep the m >= 0 rows sorted by
m (the positional healpy array), synthesize each with the real-only primitive
and recombine as `re_map + 1j*im_map`.  An omitted `nside` is `none` and
resolves to the default 32. -/
def full_alm_2_cmplx_map (alm2map : Alm2Map) (alm : AlmSeries)
    (nside : Option ℕ) (lmax : Option ℕ) : List Cx :=
  let a := fun (l : ℕ) (m : ℤ) => seriesGet alm (l, m)
  let pos := alm.filter fun kv => decide (0 ≤ kv.1.2)
  let re_arr := (sortByM (pos.map fun kv => (kv.1, re_alm_of a kv.1.1 kv.1.2))).map Prod.snd
  let im_arr := (sortByM (pos.map fun kv => (kv.1, im_alm_of a kv.1.1 kv.1.2))).map Prod.snd
  let re_map := alm2map re_arr (nside.getD 32) lmax
  let im_map := alm2map im_arr (nside.getD 32) lmax
  List.zipWith (fun x y => Cx.mk x y) re_map im_map

/-- `full_alm_2_Cl(alm)`: group by degree l (ascending, as pandas
`sum(level='l')` does), sum `alm*conj(alm)` within each degree, discard the
imaginary part (`astype(float)`), normalize by `2l+1`. -/
def full_alm_2_Cl (alm : AlmSeries) : List (ℕ × ℚ) :=
  let degrees := List.insertionSort (· ≤ ·) (alm.map fun kv => kv.1.1).dedup
  degrees.map fun l =>
    (l, (((alm.filter fun kv => decide (kv.1.1 = l)).map fun kv =>
            kv.2 * Cx.conj kv.2).sum).re / (2 * (l : ℚ) + 1))

/-- The error taxonomy reachable from the synthesis routines (spec section 7):
`assertionFailed` models the `assert` on the m = 0 rows, `spectrumError` the
invalid-spectrum rejection the spec prescribes. -/
inductive SkymapError where
  | assertionFailed
  | spectrumError
  deriving DecidableEq, Repr

/-- The positive-m assembly in `syn_full_alm`: `almp = almr + 1j*almi`. -/
def syn_almp (almr almi : ℕ → ℕ → Cx) (l m : ℕ) : Cx :=
  almr l m + Cx.I * almi l m

/-- The negative-m assembly in `syn_full_alm`:
`almn = conj(almr - 1j*almi)*(-1)**m`. -/
def syn_almn (almr almi : ℕ → ℕ → Cx) (l m : ℕ) : Cx :=
  Cx.ofRat (neg1pow m) * Cx.conj (almr l m - Cx.I * almi l m)

/-- `syn_full_alm(Cls, lmax=None)`: draw two independent half sets from the
random generator seeded with `Cls*0.5`, assemble the positive- and negative-m
rows, assert the m = 0 rows of the two assemblies agree, drop the duplicate
negative m = 0 rows and merge into one degree-sorted full series. -/
def syn_full_alm (synalm : SynAlm) (Cls : List ℚ) (lmaxOpt : Option ℕ) :
    Except SkymapError AlmSeries :=
  let lmax := lmaxOpt.getD (Cls.length - 1)
  let halfCls := Cls.map fun c => c * (1/2)
  let almr := synalm 0 halfCls lmax
  let almi := synalm 1 halfCls lmax
  let almp : List ((ℤ × ℕ) × Cx) :=
    (getlm lmax).map fun p => (((p.2 : ℤ), p.1), syn_almp almr almi p.1 p.2)
  let almn : List ((ℤ × ℕ) × Cx) :=
    (getlm lmax).map fun p => ((-(p.2 : ℤ), p.1), syn_almn almr almi p.1 p.2)
  if (List.range (lmax + 1)).all
      (fun l => decide (syn_almp almr almi l 0 = syn_almn almr almi l 0)) then
    let almnD := almn.filter fun kv => decide (kv.1.1 ≠ 0)
    Except.ok (sortByL ((almp ++ almnD).map fun kv => ((kv.1.2, kv.1.1), kv.2)))
  else
    Except.error SkymapError.assertionFailed

/-- `syn_cmplx_map(Cls, nside=32, lmax=None)`: `syn_full_alm` followed by
`full_alm_2_cmplx_map`. -/
def syn_cmplx_map (synalm : SynAlm) (alm2map : Alm2Map) (Cls : List ℚ)
    (nside : Option ℕ) (lmax : Option ℕ) : Except SkymapError (List Cx) :=
  match syn_full_alm synalm Cls lmax with
  | .ok alm => .ok (full_alm_2_cmplx_map alm2map alm nside lmax)
  | .error e => .error e

/-! ### Shared toy instantiations of the external primitives (used by the
concrete witnesses). -/

/-- A trivial random generator: every coefficient is 0.  Its m = 0
coefficients are in particular real, as healpy's are. -/
def trivSyn : SynAlm := fun _ _ _ _ _ => 0

/-- Sum of the unmasked values of a masked real map (a toy statistic that, like
the real primitive, reads only pixels whose mask flag is off). -/
def unmaskedSum (mm : List (Bool × RVal)) : ℚ :=
  (mm.map fun x => if x.1 then 0 else x.2.rat).sum

/-- A toy analysis primitive honoring the `Map2Alm` interface: every
coefficient is the sum of the unmasked pixel values (real).  It is
mask-respecting and sends all-zero maps to zero coefficients. -/
def toyT : Map2Alm := fun mm _ _ _ => ⟨unmaskedSum mm, 0⟩

/-- A toy synthesis primitive honoring the `Alm2Map` interface: a one-pixel
map holding the sum of the real parts of the coefficient array.  On a
one-pixel sky with lmax = 0 it is exactly inverse to `toyT`. -/
def toyS : Alm2Map := fun arr _ _ => [(arr.map Cx.re).sum]

/-! ### Component and evaluation lemmas for `Cx`

Rational arithmetic does not reduce definitionally (its normalization is
defined by well-founded recursion), so concrete instances are evaluated by
`simp`/`norm_num` through the constructor-form lemmas below. -/

@[simp] theorem Cx.zero_re : (0 : Cx).re = 0 := rfl

@[simp] theorem Cx.zero_im : (0 : Cx).im = 0 := rfl

@[simp] theorem Cx.one_re : (1 : Cx).re = 1 := rfl

@[simp] theorem Cx.one_im : (1 : Cx).im = 0 := rfl

@[simp] theorem Cx.add_re (x y : Cx) : (x + y).re = x.re + y.re := rfl

@[simp] theorem Cx.add_im (x y : Cx) : (x + y).im = x.im + y.im := rfl

@[simp] theorem Cx.neg_re (x : Cx) : (-x).re = -x.re := rfl

@[simp] theorem Cx.neg_im (x : Cx) : (-x).im = -x.im := rfl

@[simp] theorem Cx.sub_re (x y : Cx) : (x - y).re = x.re - y.re := rfl

@[simp] theorem Cx.sub_im (x y : Cx) : (x - y).im = x.im - y.im := rfl

@[simp] theorem Cx.mul_re (x y : Cx) : (x * y).re = x.re * y.re - x.im * y.im := rfl

@[simp] theorem Cx.mul_im (x y : Cx) : (x * y).im = x.re * y.im + x.im * y.re := rfl

@[simp] theorem Cx.conj_re (x : Cx) : (Cx.conj x).re = x.re := rfl

@[simp] theorem Cx.conj_im (x : Cx) : (Cx.conj x).im = -x.im := rfl

@[simp] theorem Cx.I_re : Cx.I.re = 0 := rfl

@[simp] theorem Cx.I_im : Cx.I.im = 1 := rfl

@[simp] theorem Cx.ofRat_re (q : ℚ) : (Cx.ofRat q).re = q := rfl

@[simp] theorem Cx.ofRat_im (q : ℚ) : (Cx.ofRat q).im = 0 := rfl

theorem Cx.zero_def : (0 : Cx) = ⟨0, 0⟩ := rfl

theorem Cx.one_def : (1 : Cx) = ⟨1, 0⟩ := rfl

theorem Cx.I_def : Cx.I = ⟨0, 1⟩ := rfl

theorem Cx.ofRat_def (q : ℚ) : Cx.ofRat q = ⟨q, 0⟩ := rfl

theorem Cx.mk_add_mk (a b c d : ℚ) : (⟨a, b⟩ + ⟨c, d⟩ : Cx) = ⟨a + c, b + d⟩ := rfl

theorem Cx.mk_mul_mk (a b c d : ℚ) :
    (⟨a, b⟩ * ⟨c, d⟩ : Cx) = ⟨a * c - b * d, a * d + b * c⟩ := rfl

theorem Cx.mk_sub_mk (a b c d : ℚ) : (⟨a, b⟩ - ⟨c, d⟩ : Cx) = ⟨a - c, b - d⟩ := rfl

theorem Cx.neg_mk (a b : ℚ) : (-(⟨a, b⟩ : Cx)) = ⟨-a, -b⟩ := rfl

theorem Cx.conj_mk (a b : ℚ) : Cx.conj ⟨a, b⟩ = ⟨a, -b⟩ := rfl

@[simp] theorem Cx.add_zero (x : Cx) : x + 0 = x := by ext <;> simp

@[simp] theorem Cx.zero_add (x : Cx) : 0 + x = x := by ext <;> simp

@[simp] theorem Cx.mul_zero (x : Cx) : x * 0 = 0 := by ext <;> simp

@[simp] theorem Cx.zero_mul (x : Cx) : 0 * x = 0 := by ext <;> simp

@[simp] theorem Cx.sub_zero (x : Cx) : x - 0 = x := by ext <;> simp

@[simp] theorem Cx.zero_sub (x : Cx) : 0 - x = -x := by ext <;> simp

@[simp] theorem Cx.neg_zero : (-(0 : Cx)) = 0 := by ext <;> simp

@[simp] theorem Cx.conj_zero : Cx.conj 0 = 0 := by ext <;> simp

/-! ### C2: the synthesizer split inverts the analyzer combination rule -/

/-- C2: for every full coefficient set `alm` and every index (l, m), the
components `re_alm` and `im_alm` derived in `full_alm_2_cmplx_map` satisfy
`re_alm + i*im_alm = alm` — the split is the exact algebraic inverse of the
combination rule, with no symmetry assumption on `alm`. -/
theorem c2_split_inverse (a : ℕ → ℤ → Cx) (l : ℕ) (m : ℤ) :
    re_alm_of a l m + Cx.I * im_alm_of a l m = a l m := by
  unfold re_alm_of im_alm_of
  ext <;> simp <;> ring

/-! ### C5: no negative-spectrum rejection in `syn_full_alm` -/

/-- C5 counterexample: the spectrum `[-1]` contains a negative entry, yet
`syn_full_alm` returns a coefficient set rather than failing with
`SpectrumError` (shown with the trivial generator). -/
theorem c5_counterexample :
    (-1 : ℚ) < 0 ∧
      syn_full_alm trivSyn [-1] none = Except.ok [((0, 0), (0 : Cx))] := by
  refine ⟨by norm_num, ?_⟩
  unfold syn_full_alm
  norm_num [trivSyn, getlm, syn_almp, syn_almn, neg1pow, sortByL,
    List.insertionSort, Cx.I_def, Cx.ofRat_def, Cx.conj_mk, Cx.zero_def,
    Cx.mk_mul_mk, Cx.mk_add_mk, Cx.mk_sub_mk]

/-- C5 amended: `syn_full_alm` performs no validation of the input spectrum:
for every generator, spectrum and lmax, it never fails with `SpectrumError`
(negative entries are passed, scaled by 1/2, straight to the external
generator; the only failure it can raise is the m = 0 assertion). -/
theorem c5_no_spectrum_rejection (synalm : SynAlm) (Cls : List ℚ)
    (lmaxOpt : Option ℕ) :
    syn_full_alm synalm Cls lmaxOpt ≠ Except.error SkymapError.spectrumError := by
  unfold syn_full_alm
  dsimp only
  split <;> simp

/-! ### C9: lmax inference from the spectrum length -/

/-- C9: when `lmax` is not given, `syn_full_alm` uses `len(Cls) - 1`, treating
the spectrum entries as indexed by degrees 0..lmax. -/
theorem c9_lmax_inference (synalm : SynAlm) (Cls : List ℚ) (_hne : Cls ≠ []) :
    syn_full_alm synalm Cls none = syn_full_alm synalm Cls (some (Cls.length - 1)) :=
  rfl

/-- Concrete instance of C9: a two-entry spectrum is synthesized at lmax 1. -/
theorem c9_lmax_inference_witness :
    syn_full_alm trivSyn [1, 2] none = syn_full_alm trivSyn [1, 2] (some 1) :=
  c9_lmax_inference trivSyn [1, 2] (by decide)

/-! ### C10: the omitted nside defaults to 32 -/

/-- C10: when the caller omits `nside`, both `full_alm_2_cmplx_map` and
`syn_cmplx_map` synthesize at resolution nside = 32, exactly as if 32 had been
passed (the resolution is not inferred from the coefficient set). -/
theorem c10_nside_default :
    (∀ (alm2map : Alm2Map) (alm : AlmSeries) (lmax : Option ℕ),
        full_alm_2_cmplx_map alm2map alm none lmax =
          full_alm_2_cmplx_map alm2map alm (some 32) lmax) ∧
    (∀ (synalm : SynAlm) (alm2map : Alm2Map) (Cls : List ℚ) (lmax : Option ℕ),
        syn_cmplx_map synalm alm2map Cls none lmax =
          syn_cmplx_map synalm alm2map Cls (some 32) lmax) := by
  constructor
  · intro alm2map alm lmax
    rfl
  · intro synalm alm2map Cls lmax
    unfold syn_cmplx_map
    cases syn_full_alm synalm Cls lmax <;> rfl

/-! ### C4: power-spectrum extraction -/

/-- The real part of a sum of complex values is the sum of the real parts. -/
theorem Cx.sum_re (L : List Cx) : L.sum.re = (L.map Cx.re).sum := by
  induction L with
  | nil => simp
  | cons a t ih => simp [ih]

/-- Summing `a * conj a` over series rows and taking the real part gives the
sum of the squared magnitudes `|a|^2`. -/
theorem sum_conj_re (L : AlmSeries) :
    ((L.map fun kv => kv.2 * Cx.conj kv.2).sum).re
      = (L.map fun kv => kv.2.re ^ 2 + kv.2.im ^ 2).sum := by
  induction L with
  | nil => simp
  | cons a t ih =>
    simp [ih]
    ring

/-- C4: `full_alm_2_Cl` returns exactly one entry per degree present in the
input, and that entry is the real number `(sum over the m present at that
degree of |a_{l,m}|^2) / (2l+1)`; the imaginary floating-point residue the
source discards is genuinely zero. -/
theorem c4_power_spectrum (alm : AlmSeries) (l : ℕ) (v : ℚ) :
    (l, v) ∈ full_alm_2_Cl alm ↔
      (l ∈ alm.map (fun kv => kv.1.1) ∧
        v = ((alm.filter fun kv => decide (kv.1.1 = l)).map
              (fun kv => kv.2.re ^ 2 + kv.2.im ^ 2)).sum / (2 * (l : ℚ) + 1)) := by
  unfold full_alm_2_Cl
  constructor
  · intro hmem
    rcases List.mem_map.1 hmem with ⟨d, hd, heq⟩
    rcases Prod.mk.injEq .. ▸ heq with ⟨rfl, rfl⟩
    refine ⟨?_, ?_⟩
    · exact List.mem_dedup.1 ((List.perm_insertionSort _ _).mem_iff.1 hd)
    · rw [sum_conj_re]
  · rintro ⟨hl, rfl⟩
    refine List.mem_map.2 ⟨l, ?_, ?_⟩
    · exact (List.perm_insertionSort _ _).mem_iff.2 (List.mem_dedup.2 hl)
    · rw [sum_conj_re]

/-! ### C7: the m = 0 self-consistency assertion never fails -/

/-- For half sets with real m = 0 entries the two assemblies agree at m = 0. -/
theorem syn_almp_eq_syn_almn_of_real (r i : ℕ → ℕ → Cx) (l : ℕ)
    (hr : (r l 0).im = 0) (hi : (i l 0).im = 0) :
    syn_almp r i l 0 = syn_almn r i l 0 := by
  ext <;> simp [syn_almp, syn_almn, neg1pow, hr, hi]

/-- C7: whenever the two half coefficient sets drawn by the generator have
real m = 0 entries (as healpy's do), the m = 0 rows of the positive assembly
`almr + 1j*almi` and of the negative assembly
`conj(almr - 1j*almi)*(-1)^m` agree, so the assertion in `syn_full_alm`
never fails and a coefficient set is returned. -/
theorem c7_m0_assertion (synalm : SynAlm) (Cls : List ℚ) (lmaxOpt : Option ℕ)
    (h0 : ∀ j l,
      (synalm j (Cls.map fun c => c * (1/2)) (lmaxOpt.getD (Cls.length - 1)) l 0).im = 0) :
    (∀ l,
      syn_almp (synalm 0 (Cls.map fun c => c * (1/2)) (lmaxOpt.getD (Cls.length - 1)))
          (synalm 1 (Cls.map fun c => c * (1/2)) (lmaxOpt.getD (Cls.length - 1))) l 0 =
        syn_almn (synalm 0 (Cls.map fun c => c * (1/2)) (lmaxOpt.getD (Cls.length - 1)))
          (synalm 1 (Cls.map fun c => c * (1/2)) (lmaxOpt.getD (Cls.length - 1))) l 0) ∧
    ∃ alm, syn_full_alm synalm Cls lmaxOpt = Except.ok alm := by
  have key : ∀ l,
      syn_almp (synalm 0 (Cls.map fun c => c * (1/2)) (lmaxOpt.getD (Cls.length - 1)))
          (synalm 1 (Cls.map fun c => c * (1/2)) (lmaxOpt.getD (Cls.length - 1))) l 0 =
        syn_almn (synalm 0 (Cls.map fun c => c * (1/2)) (lmaxOpt.getD (Cls.length - 1)))
          (synalm 1 (Cls.map fun c => c * (1/2)) (lmaxOpt.getD (Cls.length - 1))) l 0 := by
    intro l
    exact syn_almp_eq_syn_almn_of_real _ _ l (h0 0 l) (h0 1 l)
  refine ⟨key, ?_⟩
  unfold syn_full_alm
  rw [if_pos]
  · exact ⟨_, rfl⟩
  · exact List.all_eq_true.2 fun l _ => decide_eq_true (key l)

/-- Concrete instance of C7: with the trivial generator (whose m = 0 entries
are real) and spectrum `[1]`, the assertion passes and a set is returned. -/
theorem c7_m0_assertion_witness :
    ∃ alm, syn_full_alm trivSyn [1] none = Except.ok alm :=
  (c7_m0_assertion trivSyn [1] none (fun _ _ => rfl)).2

/-! ### Index bookkeeping: the `getlm` key set and series lookup -/

/-- The keys enumerated by `getlm` are exactly the valid half-set indices:
`m <= l <= lmax`. -/
theorem mem_getlm {lmax l m : ℕ} : (l, m) ∈ getlm lmax ↔ m ≤ l ∧ l ≤ lmax := by
  unfold getlm
  rw [List.mem_flatMap]
  constructor
  · rintro ⟨m1, hm1, hmem⟩
    rcases List.mem_map.1 hmem with ⟨k, hk, heq⟩
    rw [List.mem_range] at hm1 hk
    rcases Prod.mk.injEq .. ▸ heq with ⟨rfl, rfl⟩
    omega
  · rintro ⟨hml, hl⟩
    refine ⟨m, List.mem_range.2 (by omega), List.mem_map.2 ⟨l - m, List.mem_range.2 (by omega), ?_⟩⟩
    have : m + (l - m) = l := by omega
    rw [this]

/-- `getlm` lists its keys in strictly increasing (m, then l) order. -/
theorem getlm_pairwise (lmax : ℕ) :
    (getlm lmax).Pairwise fun p q => p.2 < q.2 ∨ (p.2 = q.2 ∧ p.1 < q.1) := by
  unfold getlm
  rw [List.pairwise_flatMap]
  constructor
  · intro m _
    rw [List.pairwise_map]
    refine (List.pairwise_lt_range _).imp ?_
    intro a b hab
    exact Or.inr ⟨rfl, by omega⟩
  · refine (List.pairwise_lt_range _).imp ?_
    intro m1 m2 h12 x hx y hy
    rcases List.mem_map.1 hx with ⟨k1, _, rfl⟩
    rcases List.mem_map.1 hy with ⟨k2, _, rfl⟩
    exact Or.inl h12

/-- The `getlm` key list has no duplicates. -/
theorem getlm_nodup (lmax : ℕ) : (getlm lmax).Nodup :=
  (getlm_pairwise lmax).imp fun hR => by
    rintro rfl
    rcases hR with h | ⟨-, h⟩ <;> exact lt_irrefl _ h

/-- In a series whose keys are distinct, label lookup returns the value of the
unique row carrying the key. -/
theorem seriesGet_of_mem :
    ∀ {s : AlmSeries} {k : ℕ × ℤ} {v : Cx},
      (s.map Prod.fst).Nodup → (k, v) ∈ s → seriesGet s k = v := by
  intro s
  induction s with
  | nil => intro k v _ hm; cases hm
  | cons a t ih =>
    intro k v hnd hm
    rw [List.map_cons, List.nodup_cons] at hnd
    rcases List.mem_cons.1 hm with hm | hm
    · rw [← hm] at hnd ⊢
      simp [seriesGet, List.find?_cons]
    · have hk : a.1 ≠ k := fun h => hnd.1 (h ▸ List.mem_map_of_mem Prod.fst hm)
      have hstep : seriesGet (a :: t) k = seriesGet t k := by
        simp [seriesGet, List.find?_cons, hk]
      rw [hstep]
      exact ih hnd.2 hm

/-! ### The rows of an assembled full series -/

/-- Membership characterization of `assembleFull`: a row is either a
positive-m row carrying the half-set value, or a mirrored negative-m row
(with m = 0 mirrors dropped). -/
theorem mem_assembleFull {h : ℕ → ℕ → Cx} {lmax : ℕ} {kv : (ℕ × ℤ) × Cx} :
    kv ∈ assembleFull h lmax ↔
      ((∃ p ∈ getlm lmax, kv = ((p.1, (p.2 : ℤ)), h p.1 p.2)) ∨
        (∃ p ∈ getlm lmax, p.2 ≠ 0 ∧
          kv = ((p.1, -(p.2 : ℤ)), Cx.ofRat (neg1pow p.2) * Cx.conj (h p.1 p.2)))) := by
  unfold assembleFull sortByL posSeries negSeries
  rw [List.mem_insertionSort, List.mem_append]
  constructor
  · rintro (hpos | hneg)
    · rcases List.mem_map.1 hpos with ⟨p, hp, rfl⟩
      exact Or.inl ⟨p, hp, rfl⟩
    · rw [List.mem_filter] at hneg
      rcases List.mem_map.1 hneg.1 with ⟨p, hp, rfl⟩
      refine Or.inr ⟨p, hp, ?_, rfl⟩
      have hne := of_decide_eq_true hneg.2
      simpa using hne
  · rintro (⟨p, hp, rfl⟩ | ⟨p, hp, hne, rfl⟩)
    · exact Or.inl (List.mem_map_of_mem _ hp)
    · refine Or.inr (List.mem_filter.2 ⟨List.mem_map_of_mem _ hp, ?_⟩)
      simpa using hne

/-- The keys of an assembled full series are distinct. -/
theorem assembleFull_map_fst_nodup (h : ℕ → ℕ → Cx) (lmax : ℕ) :
    ((assembleFull h lmax).map Prod.fst).Nodup := by
  unfold assembleFull sortByL
  rw [((List.perm_insertionSort rowLL _).map Prod.fst).nodup_iff]
  rw [List.map_append, List.nodup_append]
  refine ⟨?_, ?_, ?_⟩
  · unfold posSeries
    rw [List.map_map]
    refine List.Nodup.map ?_ (getlm_nodup lmax)
    intro p q hpq
    cases p; cases q
    simp only [Function.comp_apply, Prod.mk.injEq] at hpq
    simp only [Prod.mk.injEq]
    exact ⟨hpq.1, by exact_mod_cast hpq.2⟩
  · refine List.Nodup.sublist ((List.filter_sublist _).map Prod.fst) ?_
    unfold negSeries
    rw [List.map_map]
    refine List.Nodup.map ?_ (getlm_nodup lmax)
    intro p q hpq
    cases p; cases q
    simp only [Function.comp_apply, Prod.mk.injEq, neg_inj] at hpq
    simp only [Prod.mk.injEq]
    exact ⟨hpq.1, by exact_mod_cast hpq.2⟩
  · intro k hk1 hk2
    unfold posSeries at hk1
    rcases List.mem_map.1 hk1 with ⟨kv, hkv, rfl⟩
    rcases List.mem_map.1 hkv with ⟨p, _, rfl⟩
    rcases List.mem_map.1 hk2 with ⟨kv2, hkv2, hkeq⟩
    rcases List.mem_filter.1 hkv2 with ⟨hkv2m, hkv2f⟩
    unfold negSeries at hkv2m
    rcases List.mem_map.1 hkv2m with ⟨q, _, rfl⟩
    have hne := of_decide_eq_true hkv2f
    have h2 : -((q.2 : ℤ)) = (p.2 : ℤ) := congrArg Prod.snd hkeq
    simp only [ne_eq, neg_eq_zero, Int.natCast_eq_zero] at hne
    omega

/-- Positive-m lookup in an assembled full series. -/
theorem seriesGet_assembleFull_pos {h : ℕ → ℕ → Cx} {lmax l m : ℕ}
    (hml : m ≤ l) (hl : l ≤ lmax) :
    seriesGet (assembleFull h lmax) (l, (m : ℤ)) = h l m :=
  seriesGet_of_mem (assembleFull_map_fst_nodup h lmax)
    (mem_assembleFull.2 (Or.inl ⟨(l, m), mem_getlm.2 ⟨hml, hl⟩, rfl⟩))

/-- Negative-m lookup in an assembled full series: the mirrored conjugate. -/
theorem seriesGet_assembleFull_neg {h : ℕ → ℕ → Cx} {lmax l m : ℕ}
    (hml : m ≤ l) (hl : l ≤ lmax) (hm : m ≠ 0) :
    seriesGet (assembleFull h lmax) (l, -(m : ℤ)) =
      Cx.ofRat (neg1pow m) * Cx.conj (h l m) :=
  seriesGet_of_mem (assembleFull_map_fst_nodup h lmax)
    (mem_assembleFull.2 (Or.inr ⟨(l, m), mem_getlm.2 ⟨hml, hl⟩, hm, rfl⟩))

/-! ### Lookups in the analyzer output -/

/-- Unfolding of `cmplx_map_2_full_alm` into its two assembled components. -/
theorem cmplx_map_2_full_alm_def (map2alm : Map2Alm) (res : List CVal) (lmax : ℕ) :
    cmplx_map_2_full_alm map2alm res lmax =
      (assembleFull (map2alm ((buildMask res).zip (res.map CVal.re)) lmax) lmax).map
        fun kv => (kv.1, kv.2 + Cx.I *
          seriesGet (assembleFull (map2alm ((buildMask res).zip (res.map CVal.im)) lmax) lmax)
            kv.1) :=
  rfl

/-- The keys of the analyzer output are distinct. -/
theorem analyze_map_fst_nodup (map2alm : Map2Alm) (res : List CVal) (lmax : ℕ) :
    ((cmplx_map_2_full_alm map2alm res lmax).map Prod.fst).Nodup := by
  rw [cmplx_map_2_full_alm_def, List.map_map]
  exact assembleFull_map_fst_nodup _ lmax

/-- Positive-m lookup in the analyzer output:
`a_{l,m} = real_alm_{l,m} + i imag_alm_{l,m}` for `0 <= m <= l <= lmax`. -/
theorem seriesGet_analyze_pos {map2alm : Map2Alm} {res : List CVal} {lmax l m : ℕ}
    (hml : m ≤ l) (hl : l ≤ lmax) :
    seriesGet (cmplx_map_2_full_alm map2alm res lmax) (l, (m : ℤ)) =
      map2alm ((buildMask res).zip (res.map CVal.re)) lmax l m +
        Cx.I * map2alm ((buildMask res).zip (res.map CVal.im)) lmax l m := by
  apply seriesGet_of_mem (analyze_map_fst_nodup map2alm res lmax)
  rw [cmplx_map_2_full_alm_def]
  have hmem : ((l, (m : ℤ)), map2alm ((buildMask res).zip (res.map CVal.re)) lmax l m)
      ∈ assembleFull (map2alm ((buildMask res).zip (res.map CVal.re)) lmax) lmax :=
    mem_assembleFull.2 (Or.inl ⟨(l, m), mem_getlm.2 ⟨hml, hl⟩, rfl⟩)
  have hmap := List.mem_map_of_mem
    (fun kv => (kv.1, kv.2 + Cx.I *
      seriesGet (assembleFull (map2alm ((buildMask res).zip (res.map CVal.im)) lmax) lmax) kv.1))
    hmem
  dsimp only at hmap
  rw [seriesGet_assembleFull_pos hml hl] at hmap
  exact hmap

/-- Negative-m lookup in the analyzer output:
`a_{l,-m} = (-1)^m (conj real_alm_{l,m} + i conj imag_alm_{l,m})` for
`0 < m <= l <= lmax`. -/
theorem seriesGet_analyze_neg {map2alm : Map2Alm} {res : List CVal} {lmax l m : ℕ}
    (hml : m ≤ l) (hl : l ≤ lmax) (hm : m ≠ 0) :
    seriesGet (cmplx_map_2_full_alm map2alm res lmax) (l, -(m : ℤ)) =
      Cx.ofRat (neg1pow m) * Cx.conj (map2alm ((buildMask res).zip (res.map CVal.re)) lmax l m) +
        Cx.I * (Cx.ofRat (neg1pow m) *
          Cx.conj (map2alm ((buildMask res).zip (res.map CVal.im)) lmax l m)) := by
  apply seriesGet_of_mem (analyze_map_fst_nodup map2alm res lmax)
  rw [cmplx_map_2_full_alm_def]
  have hmem : ((l, -(m : ℤ)),
        Cx.ofRat (neg1pow m) * Cx.conj (map2alm ((buildMask res).zip (res.map CVal.re)) lmax l m))
      ∈ assembleFull (map2alm ((buildMask res).zip (res.map CVal.re)) lmax) lmax :=
    mem_assembleFull.2 (Or.inr ⟨(l, m), mem_getlm.2 ⟨hml, hl⟩, hm, rfl⟩)
  have hmap := List.mem_map_of_mem
    (fun kv => (kv.1, kv.2 + Cx.I *
      seriesGet (assembleFull (map2alm ((buildMask res).zip (res.map CVal.im)) lmax) lmax) kv.1))
    hmem
  dsimp only at hmap
  rw [seriesGet_assembleFull_neg hml hl hm] at hmap
  exact hmap

/-! ### C3: conjugate symmetry of the analyzer output on real maps -/

/-- A masked map all of whose stored values are 0 has unmasked sum 0. -/
theorem unmaskedSum_zero {mm : List (Bool × RVal)}
    (h : ∀ x ∈ mm, x.2 = RVal.fin 0) : unmaskedSum mm = 0 := by
  induction mm with
  | nil => rfl
  | cons x t ih =>
    rw [unmaskedSum, List.map_cons, List.sum_cons, h x (List.mem_cons_self x t)]
    have ht := ih fun y hy => h y (List.mem_cons_of_mem x hy)
    rw [unmaskedSum] at ht
    rw [ht]
    cases x.1 <;> simp [RVal.rat]

/-- The toy analysis primitive sends all-zero maps to zero coefficients. -/
theorem toyT_zero : ∀ (mm : List (Bool × RVal)) (lm l2 m2 : ℕ),
    (∀ x ∈ mm, x.2 = RVal.fin 0) → toyT mm lm l2 m2 = 0 := by
  intro mm lm l2 m2 h
  unfold toyT
  rw [unmaskedSum_zero h]
  rfl

/-- C3: for a real-valued map (imaginary part identically zero, so that — as
for any exact transform — the imaginary half set vanishes), the analyzer
output satisfies `a_{l,-m} = (-1)^m conj(a_{l,m})` for every
`0 < m <= l <= lmax`. -/
theorem c3_real_map_symmetry (map2alm : Map2Alm) (res : List CVal) (lmax : ℕ)
    (hreal : ∀ c ∈ res, c.im = RVal.fin 0)
    (hzero : ∀ (mm : List (Bool × RVal)) (lm l2 m2 : ℕ),
      (∀ x ∈ mm, x.2 = RVal.fin 0) → map2alm mm lm l2 m2 = 0)
    (l m : ℕ) (hpos : 0 < m) (hml : m ≤ l) (hlmax : l ≤ lmax) :
    seriesGet (cmplx_map_2_full_alm map2alm res lmax) (l, -(m : ℤ)) =
      Cx.ofRat (neg1pow m) *
        Cx.conj (seriesGet (cmplx_map_2_full_alm map2alm res lmax) (l, (m : ℤ))) := by
  have hm : m ≠ 0 := by omega
  have hq : map2alm ((buildMask res).zip (res.map CVal.im)) lmax l m = 0 := by
    apply hzero
    intro x hx
    have hx2 := (List.of_mem_zip hx).2
    rcases List.mem_map.1 hx2 with ⟨c, hc, hceq⟩
    rw [← hceq]
    exact hreal c hc
  rw [seriesGet_analyze_neg hml hlmax hm, seriesGet_analyze_pos hml hlmax, hq]
  simp

/-- Concrete instance of C3: the one-pixel real map `[3]` analyzed with the
toy primitive at lmax 1 satisfies the symmetry at (l, m) = (1, 1). -/
theorem c3_real_map_symmetry_witness :
    seriesGet (cmplx_map_2_full_alm toyT [⟨RVal.fin 3, RVal.fin 0⟩] 1) (1, -(1 : ℤ)) =
      Cx.ofRat (neg1pow 1) *
        Cx.conj (seriesGet (cmplx_map_2_full_alm toyT [⟨RVal.fin 3, RVal.fin 0⟩] 1) (1, (1 : ℤ))) :=
  c3_real_map_symmetry toyT [⟨RVal.fin 3, RVal.fin 0⟩] 1
    (by
      intro c hc
      rw [List.mem_singleton] at hc
      rw [hc])
    toyT_zero 1 1 (by decide) (by decide) (by decide)

/-! ### C6: masking semantics of the analyzer -/

/-- C6 counterexample: the pixel value `inf + 0j` is invalid (non-finite), yet
the mask `cmplx_map_2_full_alm` builds (`np.isnan`) does not mark it — the
mask is built from NaN entries only, not from every non-finite entry. -/
theorem c6_counterexample :
    isfiniteC ⟨RVal.inf, RVal.fin 0⟩ = false ∧
      buildMask [⟨RVal.inf, RVal.fin 0⟩] = [false] :=
  ⟨rfl, rfl⟩

/-- Splitting the unmasked sum over the head of a masked map. -/
theorem unmaskedSum_cons (x : Bool × RVal) (t : List (Bool × RVal)) :
    unmaskedSum (x :: t) = (if x.1 then 0 else x.2.rat) + unmaskedSum t := rfl

/-- The toy analysis primitive reads only unmasked pixel values: maps with the
same masks and the same values at unmasked pixels transform identically. -/
theorem toyT_maskRespecting : ∀ (mm mm2 : List (Bool × RVal)) (lm : ℕ),
    List.Forall₂ (fun x y => x.1 = y.1 ∧ (x.1 = false → x.2 = y.2)) mm mm2 →
    toyT mm lm = toyT mm2 lm := by
  intro mm mm2 lm hrel
  unfold toyT
  have hsum : unmaskedSum mm = unmaskedSum mm2 := by
    induction hrel with
    | nil => rfl
    | cons hxy htail ih =>
      rcases hxy with ⟨hflag, hval⟩
      rw [unmaskedSum_cons, unmaskedSum_cons, ih, ← hflag]
      cases hx : Prod.fst _
      · rw [hval hx]
      · rfl
  rw [hsum]

/-- C6 amended: the analyzer's pixel mask is the NaN pattern of the input (an
Inf entry is not masked), the same mask is applied to the real-part and
imaginary-part transforms, and masked pixels are excluded rather than
replaced: for any primitive that reads only unmasked values, the analysis
depends only on the NaN pattern and the values at non-NaN pixels. -/
theorem c6_mask_semantics (map2alm : Map2Alm)
    (hresp : ∀ (mm mm2 : List (Bool × RVal)) (lm : ℕ),
      List.Forall₂ (fun x y => x.1 = y.1 ∧ (x.1 = false → x.2 = y.2)) mm mm2 →
      map2alm mm lm = map2alm mm2 lm)
    (res res2 : List CVal) (lmax : ℕ)
    (hagree : List.Forall₂
      (fun c d => isnanC c = isnanC d ∧ (isnanC c = false → c = d)) res res2) :
    cmplx_map_2_full_alm map2alm res lmax = cmplx_map_2_full_alm map2alm res2 lmax := by
  have hzip : ∀ f : CVal → RVal,
      List.Forall₂ (fun x y => x.1 = y.1 ∧ (x.1 = false → x.2 = y.2))
        ((buildMask res).zip (res.map f)) ((buildMask res2).zip (res2.map f)) := by
    intro f
    induction hagree with
    | nil => exact List.Forall₂.nil
    | cons hcd htail ih =>
      exact List.Forall₂.cons ⟨hcd.1, fun hflag => congrArg f (hcd.2 hflag)⟩ ih
  have hre := hresp _ _ lmax (hzip CVal.re)
  have him := hresp _ _ lmax (hzip CVal.im)
  rw [cmplx_map_2_full_alm_def, cmplx_map_2_full_alm_def, hre, him]

/-- Concrete instance of amended C6: changing the imaginary value stored at a
NaN-masked pixel does not change the analysis. -/
theorem c6_mask_semantics_witness :
    cmplx_map_2_full_alm toyT [⟨RVal.nan, RVal.fin 1⟩, ⟨RVal.fin 2, RVal.fin 3⟩] 0 =
      cmplx_map_2_full_alm toyT [⟨RVal.nan, RVal.fin 5⟩, ⟨RVal.fin 2, RVal.fin 3⟩] 0 :=
  c6_mask_semantics toyT toyT_maskRespecting _ _ 0
    (List.Forall₂.cons ⟨rfl, fun h => absurd h (by decide)⟩
      (List.Forall₂.cons ⟨rfl, fun _ => rfl⟩ List.Forall₂.nil))

/-! ### C8: every valid (l, m) key appears exactly once -/

/-- In a duplicate-free list, a member is counted exactly once. -/
theorem countP_key_eq_one {α : Type} [DecidableEq α] :
    ∀ {l : List α} {x : α}, l.Nodup → x ∈ l →
      l.countP (fun y => decide (y = x)) = 1 := by
  intro l
  induction l with
  | nil => intro x _ hx; cases hx
  | cons a t ih =>
    intro x hn hx
    rw [List.nodup_cons] at hn
    rcases List.mem_cons.1 hx with rfl | hx2
    · have ht : t.countP (fun y => decide (y = x)) = 0 :=
        List.countP_eq_zero.2 fun y hy => by
          simp only [decide_eq_true_eq]
          rintro rfl
          exact hn.1 hy
      rw [List.countP_cons, ht]
      simp
    · have hax : decide (a = x) = false := by
        simp only [decide_eq_false_iff_not]
        rintro rfl
        exact hn.1 hx2
      rw [List.countP_cons, ih hn.2 hx2, hax]
      simp

/-- A non-negative target key is hit exactly once among the positive rows. -/
theorem countP_getlm_pos {lmax l : ℕ} {m : ℤ}
    (hml : m.natAbs ≤ l) (hl : l ≤ lmax) (hm : 0 ≤ m) :
    (getlm lmax).countP (fun p => decide ((p.1, (p.2 : ℤ)) = (l, m))) = 1 := by
  have hcongr : ∀ p ∈ getlm lmax,
      (decide ((p.1, (p.2 : ℤ)) = (l, m)) = true) ↔
        (decide (p = (l, m.toNat)) = true) := by
    intro p _
    simp only [decide_eq_true_eq, Prod.ext_iff]
    omega
  rw [List.countP_congr hcongr]
  exact countP_key_eq_one (getlm_nodup lmax) (mem_getlm.2 ⟨by omega, hl⟩)

/-- A negative target key never matches a positive row. -/
theorem countP_getlm_pos_zero {lmax l : ℕ} {m : ℤ} (hm : m < 0) :
    (getlm lmax).countP (fun p => decide ((p.1, (p.2 : ℤ)) = (l, m))) = 0 := by
  refine List.countP_eq_zero.2 fun p _ => ?_
  simp only [decide_eq_true_eq, Prod.ext_iff]
  omega

/-- A negative target key is hit exactly once among the kept mirrored rows. -/
theorem countP_getlm_neg {lmax l : ℕ} {m : ℤ}
    (hml : m.natAbs ≤ l) (hl : l ≤ lmax) (hm : m < 0) :
    (getlm lmax).countP
      (fun p => decide ((p.1, -(p.2 : ℤ)) = (l, m)) && decide (-(p.2 : ℤ) ≠ 0)) = 1 := by
  have hcongr : ∀ p ∈ getlm lmax,
      ((decide ((p.1, -(p.2 : ℤ)) = (l, m)) && decide (-(p.2 : ℤ) ≠ 0)) = true) ↔
        (decide (p = (l, m.natAbs)) = true) := by
    intro p _
    simp only [Bool.and_eq_true, decide_eq_true_eq, Prod.ext_iff, ne_eq]
    omega
  rw [List.countP_congr hcongr]
  exact countP_key_eq_one (getlm_nodup lmax) (mem_getlm.2 ⟨by omega, hl⟩)

/-- A non-negative target key never matches a kept mirrored row (in
particular the dropped negative m = 0 mirror is counted zero times). -/
theorem countP_getlm_neg_zero {lmax l : ℕ} {m : ℤ} (hm : 0 ≤ m) :
    (getlm lmax).countP
      (fun p => decide ((p.1, -(p.2 : ℤ)) = (l, m)) && decide (-(p.2 : ℤ) ≠ 0)) = 0 := by
  refine List.countP_eq_zero.2 fun p _ => ?_
  simp only [Bool.and_eq_true, decide_eq_true_eq, Prod.ext_iff, ne_eq]
  omega

/-- Every valid key appears exactly once in an assembled full series. -/
theorem countP_assembleFull {h : ℕ → ℕ → Cx} {lmax l : ℕ} {m : ℤ}
    (hml : m.natAbs ≤ l) (hl : l ≤ lmax) :
    (assembleFull h lmax).countP (fun kv => decide (kv.1 = (l, m))) = 1 := by
  unfold assembleFull sortByL posSeries negSeries
  rw [(List.perm_insertionSort rowLL _).countP_eq, List.countP_append,
    List.countP_filter, List.countP_map, List.countP_map]
  rcases le_or_lt 0 m with hm | hm
  · show (getlm lmax).countP (fun p => decide ((p.1, (p.2 : ℤ)) = (l, m))) +
        (getlm lmax).countP
          (fun p => decide ((p.1, -(p.2 : ℤ)) = (l, m)) && decide (-(p.2 : ℤ) ≠ 0)) = 1
    rw [countP_getlm_pos hml hl hm, countP_getlm_neg_zero hm]
  · show (getlm lmax).countP (fun p => decide ((p.1, (p.2 : ℤ)) = (l, m))) +
        (getlm lmax).countP
          (fun p => decide ((p.1, -(p.2 : ℤ)) = (l, m)) && decide (-(p.2 : ℤ) ≠ 0)) = 1
    rw [countP_getlm_pos_zero hm, countP_getlm_neg hml hl hm]

/-- C8: every full coefficient set produced — by the analyzer
`cmplx_map_2_full_alm`, and by `syn_full_alm` whenever it returns one —
carries each valid key (l, m) with `|m| <= l <= lmax` exactly once; in
particular the explicit negative-m copy of each m = 0 row has been dropped
before the halves were merged. -/
theorem c8_no_duplicate_keys :
    (∀ (map2alm : Map2Alm) (res : List CVal) (lmax l : ℕ) (m : ℤ),
        m.natAbs ≤ l → l ≤ lmax →
        (cmplx_map_2_full_alm map2alm res lmax).countP
          (fun kv => decide (kv.1 = (l, m))) = 1) ∧
    (∀ (synalm : SynAlm) (Cls : List ℚ) (lmaxOpt : Option ℕ) (alm : AlmSeries)
        (l : ℕ) (m : ℤ),
        syn_full_alm synalm Cls lmaxOpt = Except.ok alm →
        m.natAbs ≤ l → l ≤ lmaxOpt.getD (Cls.length - 1) →
        alm.countP (fun kv => decide (kv.1 = (l, m))) = 1) := by
  constructor
  · intro map2alm res lmax l m hml hl
    rw [cmplx_map_2_full_alm_def, List.countP_map]
    exact countP_assembleFull hml hl
  · intro synalm Cls lmaxOpt alm l m hok hml hl
    unfold syn_full_alm at hok
    dsimp only at hok
    split at hok
    · injection hok with hok
      rw [← hok]
      unfold sortByL
      rw [(List.perm_insertionSort rowLL _).countP_eq, List.countP_map,
        List.countP_append, List.countP_filter, List.countP_map, List.countP_map]
      rcases le_or_lt 0 m with hm | hm
      · show (getlm _).countP (fun p => decide ((p.1, (p.2 : ℤ)) = (l, m))) +
            (getlm _).countP
              (fun p => decide ((p.1, -(p.2 : ℤ)) = (l, m)) && decide (-(p.2 : ℤ) ≠ 0)) = 1
        rw [countP_getlm_pos hml hl hm, countP_getlm_neg_zero hm]
      · show (getlm _).countP (fun p => decide ((p.1, (p.2 : ℤ)) = (l, m))) +
            (getlm _).countP
              (fun p => decide ((p.1, -(p.2 : ℤ)) = (l, m)) && decide (-(p.2 : ℤ) ≠ 0)) = 1
        rw [countP_getlm_pos_zero hm, countP_getlm_neg hml hl hm]
    · exact absurd hok (by simp)

/-- Concrete instance of C8: analysis of a one-pixel map at lmax 1 carries
the key (1, -1) once, and a synthesized set at lmax 1 carries (1, 0) once. -/
theorem c8_no_duplicate_keys_witness :
    (cmplx_map_2_full_alm toyT [⟨RVal.fin 1, RVal.fin 1⟩] 1).countP
        (fun kv => decide (kv.1 = (1, -1))) = 1 ∧
    ([((0, 0), (0 : Cx)), ((1, -1), 0), ((1, 0), 0), ((1, 1), 0)] : AlmSeries).countP
        (fun kv => decide (kv.1 = (1, 0))) = 1 :=
  ⟨c8_no_duplicate_keys.1 toyT [⟨RVal.fin 1, RVal.fin 1⟩] 1 1 (-1) (by decide) (by decide),
   c8_no_duplicate_keys.2 trivSyn [1, 1] none
     ([((0, 0), (0 : Cx)), ((1, -1), 0), ((1, 0), 0), ((1, 1), 0)] : AlmSeries) 1 0
     (by
       unfold syn_full_alm
       norm_num [trivSyn, getlm, syn_almp, syn_almn, neg1pow, sortByL,
         List.insertionSort, List.orderedInsert, rowLL, llLe,
         Cx.I_def, Cx.ofRat_def, Cx.conj_mk, Cx.zero_def,
         Cx.mk_mul_mk, Cx.mk_add_mk, Cx.mk_sub_mk])
     (by decide) (by decide)⟩

/-! ### C1: the exact round trip for band-limited maps -/

/-- A series sorted strictly by (m, l) key order with duplicate-free keys is
the unique sorted arrangement of its rows. -/
theorem sortByM_eq_of_perm {s t : AlmSeries}
    (hperm : List.Perm s t)
    (hsort : t.Pairwise fun a b => a.1.2 < b.1.2 ∨ (a.1.2 = b.1.2 ∧ a.1.1 < b.1.1))
    (hnd : (s.map Prod.fst).Nodup) :
    sortByM s = t := by
  unfold sortByM
  have hperm2 : List.Perm (List.insertionSort rowML s) t :=
    (List.perm_insertionSort rowML s).trans hperm
  have hndS : ((List.insertionSort rowML s).map Prod.fst).Nodup := by
    rw [((List.perm_insertionSort rowML s).map Prod.fst).nodup_iff]
    exact hnd
  have hkeys : (List.insertionSort rowML s).Pairwise fun a b => a.1 ≠ b.1 :=
    List.pairwise_map.1 hndS
  have hsorted : (List.insertionSort rowML s).Pairwise rowML :=
    List.sorted_insertionSort rowML s
  have hstrict : (List.insertionSort rowML s).Pairwise fun a b =>
      a.1.2 < b.1.2 ∨ (a.1.2 = b.1.2 ∧ a.1.1 < b.1.1) := by
    refine (hsorted.and hkeys).imp ?_
    intro a b hab
    rcases hab with ⟨hle, hne⟩
    unfold rowML mlLe at hle
    rw [Ne, Prod.ext_iff] at hne
    omega
  haveI : IsAntisymm ((ℕ × ℤ) × Cx)
      (fun a b => a.1.2 < b.1.2 ∨ (a.1.2 = b.1.2 ∧ a.1.1 < b.1.1)) :=
    ⟨fun a b h1 h2 => False.elim (by omega)⟩
  exact List.eq_of_perm_of_sorted hperm2 hstrict hsort

/-- The positive-m canonical row list, in healpy order, is strictly sorted by
(m, l). -/
theorem getlm_rows_pairwise (lmax : ℕ) (g : ℕ × ℤ → Cx) :
    ((getlm lmax).map fun p => ((p.1, (p.2 : ℤ)), g (p.1, (p.2 : ℤ)))).Pairwise
      fun a b => a.1.2 < b.1.2 ∨ (a.1.2 = b.1.2 ∧ a.1.1 < b.1.1) := by
  rw [List.pairwise_map]
  refine (getlm_pairwise lmax).imp ?_
  intro p q hpq
  dsimp only
  rcases hpq with h | ⟨h1, h2⟩
  · exact Or.inl (by exact_mod_cast h)
  · exact Or.inr ⟨by exact_mod_cast h1, h2⟩

/-- Filtering an assembled full series to m >= 0 recovers exactly its
positive-m rows (as a permutation). -/
theorem filter_assembleFull_perm (h : ℕ → ℕ → Cx) (lmax : ℕ) :
    List.Perm ((assembleFull h lmax).filter fun kv => decide (0 ≤ kv.1.2))
      (posSeries h lmax) := by
  unfold assembleFull sortByL
  refine ((List.perm_insertionSort rowLL _).filter _).trans ?_
  rw [List.filter_append]
  have h1 : (posSeries h lmax).filter (fun kv => decide (0 ≤ kv.1.2)) = posSeries h lmax :=
    List.filter_eq_self.2 (by
      intro kv hkv
      rcases List.mem_map.1 hkv with ⟨p, _, rfl⟩
      simp)
  have h2 : (((negSeries h lmax).filter fun kv => decide (kv.1.2 ≠ 0)).filter
      fun kv => decide (0 ≤ kv.1.2)) = [] :=
    List.filter_eq_nil_iff.2 (by
      intro kv hkv
      rcases List.mem_filter.1 hkv with ⟨hkv1, hkv2⟩
      rcases List.mem_map.1 hkv1 with ⟨p, _, rfl⟩
      have hne := of_decide_eq_true hkv2
      simp only [ne_eq, neg_eq_zero, Int.natCast_eq_zero] at hne
      simp only [decide_eq_true_eq, not_le]
      omega)
  rw [h1, h2, List.append_nil]

/-- The positional half-alm array built by `full_alm_2_cmplx_map` from an
analyzer output: filtering to m >= 0, substituting a key-determined value and
sorting by (m, l) yields the value at each `getlm` key, in healpy order. -/
theorem analyze_half_array (map2alm : Map2Alm) (res : List CVal) (lmax : ℕ)
    (g : ℕ × ℤ → Cx) :
    (sortByM (((cmplx_map_2_full_alm map2alm res lmax).filter
        fun kv => decide (0 ≤ kv.1.2)).map fun kv => (kv.1, g kv.1))).map Prod.snd
      = (getlm lmax).map fun p => g (p.1, (p.2 : ℤ)) := by
  have hkey : sortByM (((cmplx_map_2_full_alm map2alm res lmax).filter
        fun kv => decide (0 ≤ kv.1.2)).map fun kv => (kv.1, g kv.1))
      = (getlm lmax).map fun p => ((p.1, (p.2 : ℤ)), g (p.1, (p.2 : ℤ))) := by
    refine sortByM_eq_of_perm ?_ (getlm_rows_pairwise lmax g) ?_
    · rw [cmplx_map_2_full_alm_def, List.filter_map, List.map_map]
      refine List.Perm.trans
        (List.Perm.map _ (filter_assembleFull_perm
          (map2alm ((buildMask res).zip (res.map CVal.re)) lmax) lmax)) ?_
      apply List.Perm.of_eq
      unfold posSeries
      rw [List.map_map]
      rfl
    · rw [List.map_map]
      exact List.Nodup.sublist ((List.filter_sublist _).map _)
        (analyze_map_fst_nodup map2alm res lmax)
  rw [hkey, List.map_map]
  rfl

/-- The sign `(-1)^m` takes only the values 1 and -1. -/
theorem neg1pow_eq_one_or (m : ℕ) : neg1pow m = 1 ∨ neg1pow m = -1 := by
  unfold neg1pow
  split <;> simp

/-- The split in `full_alm_2_cmplx_map` recovers the real half set of the
analyzer exactly (for valid indices; at m = 0 it uses that the primitive's
m = 0 coefficients are real). -/
theorem re_alm_of_analyze {map2alm : Map2Alm} {res : List CVal} {lmax l m : ℕ}
    (hml : m ≤ l) (hl : l ≤ lmax)
    (hm0 : m = 0 →
      (map2alm ((buildMask res).zip (res.map CVal.re)) lmax l 0).im = 0 ∧
      (map2alm ((buildMask res).zip (res.map CVal.im)) lmax l 0).im = 0) :
    re_alm_of (fun l2 m2 => seriesGet (cmplx_map_2_full_alm map2alm res lmax) (l2, m2))
        l (m : ℤ)
      = map2alm ((buildMask res).zip (res.map CVal.re)) lmax l m := by
  unfold re_alm_of
  dsimp only
  rcases Nat.eq_zero_or_pos m with rfl | hpos
  · rcases hm0 rfl with ⟨h1, h2⟩
    rw [show -((0 : ℕ) : ℤ) = ((0 : ℕ) : ℤ) by simp]
    rw [seriesGet_analyze_pos hml hl]
    ext <;> simp [neg1pow, h1, h2] <;> ring
  · have hne : m ≠ 0 := by omega
    rw [seriesGet_analyze_pos hml hl, seriesGet_analyze_neg hml hl hne,
      Int.natAbs_ofNat]
    rcases neg1pow_eq_one_or m with hs | hs
    all_goals rw [hs]; ext <;> simp <;> ring

/-- The split in `full_alm_2_cmplx_map` recovers the imaginary half set of
the analyzer exactly. -/
theorem im_alm_of_analyze {map2alm : Map2Alm} {res : List CVal} {lmax l m : ℕ}
    (hml : m ≤ l) (hl : l ≤ lmax)
    (hm0 : m = 0 →
      (map2alm ((buildMask res).zip (res.map CVal.re)) lmax l 0).im = 0 ∧
      (map2alm ((buildMask res).zip (res.map CVal.im)) lmax l 0).im = 0) :
    im_alm_of (fun l2 m2 => seriesGet (cmplx_map_2_full_alm map2alm res lmax) (l2, m2))
        l (m : ℤ)
      = map2alm ((buildMask res).zip (res.map CVal.im)) lmax l m := by
  unfold im_alm_of
  dsimp only
  rcases Nat.eq_zero_or_pos m with rfl | hpos
  · rcases hm0 rfl with ⟨h1, h2⟩
    rw [show -((0 : ℕ) : ℤ) = ((0 : ℕ) : ℤ) by simp]
    rw [seriesGet_analyze_pos hml hl]
    ext <;> simp [neg1pow, h1, h2] <;> ring
  · have hne : m ≠ 0 := by omega
    rw [seriesGet_analyze_pos hml hl, seriesGet_analyze_neg hml hl hne,
      Int.natAbs_ofNat]
    rcases neg1pow_eq_one_or m with hs | hs
    all_goals rw [hs]; ext <;> simp <;> ring

/-- Zipping the real and imaginary component maps of the same pixel list back
into complex values is the pixelwise complex map. -/
theorem zipWith_mk_map (l : List CVal) :
    List.zipWith (fun x y => Cx.mk x y) (l.map fun c => c.re.rat)
      (l.map fun c => c.im.rat) = l.map CVal.toCx := by
  induction l with
  | nil => rfl
  | cons c t ih => simp [ih, CVal.toCx]

/-- C1: exact round trip.  For a complex map with no masked pixels that is
exactly band-limited at lmax — expressed through the external primitive pair:
synthesizing each analyzed half set reproduces the corresponding component map
exactly — and a primitive whose m = 0 coefficients are real (healpy's
convention), `full_alm_2_cmplx_map (cmplx_map_2_full_alm X lmax) nside lmax`
returns X exactly (exact arithmetic models the floating-point-precision
clause; the shrinking-tolerance clause for merely smooth maps is an analytic
property of the external transform, outside this model). -/
theorem c1_round_trip (map2alm : Map2Alm) (alm2map : Alm2Map) (res : List CVal)
    (lmax ns : ℕ)
    (_hnomask : ∀ c ∈ res, isfiniteC c = true)
    (hm0 : ∀ l2, l2 ≤ lmax →
      (map2alm ((buildMask res).zip (res.map CVal.re)) lmax l2 0).im = 0 ∧
      (map2alm ((buildMask res).zip (res.map CVal.im)) lmax l2 0).im = 0)
    (hbandr : alm2map ((getlm lmax).map fun p =>
        map2alm ((buildMask res).zip (res.map CVal.re)) lmax p.1 p.2) ns (some lmax)
      = res.map fun c => c.re.rat)
    (hbandi : alm2map ((getlm lmax).map fun p =>
        map2alm ((buildMask res).zip (res.map CVal.im)) lmax p.1 p.2) ns (some lmax)
      = res.map fun c => c.im.rat) :
    full_alm_2_cmplx_map alm2map (cmplx_map_2_full_alm map2alm res lmax)
      (some ns) (some lmax) = res.map CVal.toCx := by
  have hunfold : full_alm_2_cmplx_map alm2map (cmplx_map_2_full_alm map2alm res lmax)
      (some ns) (some lmax)
    = List.zipWith (fun x y => Cx.mk x y)
        (alm2map ((sortByM (((cmplx_map_2_full_alm map2alm res lmax).filter
            fun kv => decide (0 ≤ kv.1.2)).map fun kv =>
              (kv.1, re_alm_of (fun l2 m2 =>
                seriesGet (cmplx_map_2_full_alm map2alm res lmax) (l2, m2))
                kv.1.1 kv.1.2))).map Prod.snd) ns (some lmax))
        (alm2map ((sortByM (((cmplx_map_2_full_alm map2alm res lmax).filter
            fun kv => decide (0 ≤ kv.1.2)).map fun kv =>
              (kv.1, im_alm_of (fun l2 m2 =>
                seriesGet (cmplx_map_2_full_alm map2alm res lmax) (l2, m2))
                kv.1.1 kv.1.2))).map Prod.snd) ns (some lmax)) := rfl
  have harr_re : ((sortByM (((cmplx_map_2_full_alm map2alm res lmax).filter
        fun kv => decide (0 ≤ kv.1.2)).map fun kv =>
          (kv.1, re_alm_of (fun l2 m2 =>
            seriesGet (cmplx_map_2_full_alm map2alm res lmax) (l2, m2))
            kv.1.1 kv.1.2))).map Prod.snd)
      = (getlm lmax).map fun p =>
          map2alm ((buildMask res).zip (res.map CVal.re)) lmax p.1 p.2 := by
    have h1 : ((sortByM (((cmplx_map_2_full_alm map2alm res lmax).filter
          fun kv => decide (0 ≤ kv.1.2)).map fun kv =>
            (kv.1, re_alm_of (fun l2 m2 =>
              seriesGet (cmplx_map_2_full_alm map2alm res lmax) (l2, m2))
              kv.1.1 kv.1.2))).map Prod.snd)
        = (getlm lmax).map fun p =>
            re_alm_of (fun l2 m2 =>
              seriesGet (cmplx_map_2_full_alm map2alm res lmax) (l2, m2))
              p.1 ((p.2 : ℕ) : ℤ) :=
      analyze_half_array map2alm res lmax fun k =>
        re_alm_of (fun l2 m2 =>
          seriesGet (cmplx_map_2_full_alm map2alm res lmax) (l2, m2)) k.1 k.2
    rw [h1]
    refine List.map_congr_left ?_
    intro p hp
    rcases p with ⟨l2, m2⟩
    rcases mem_getlm.1 hp with ⟨hml2, hl2⟩
    exact re_alm_of_analyze hml2 hl2 fun hz => by
      subst hz
      exact hm0 l2 hl2
  have harr_im : ((sortByM (((cmplx_map_2_full_alm map2alm res lmax).filter
        fun kv => decide (0 ≤ kv.1.2)).map fun kv =>
          (kv.1, im_alm_of (fun l2 m2 =>
            seriesGet (cmplx_map_2_full_alm map2alm res lmax) (l2, m2))
            kv.1.1 kv.1.2))).map Prod.snd)
      = (getlm lmax).map fun p =>
          map2alm ((buildMask res).zip (res.map CVal.im)) lmax p.1 p.2 := by
    have h1 : ((sortByM (((cmplx_map_2_full_alm map2alm res lmax).filter
          fun kv => decide (0 ≤ kv.1.2)).map fun kv =>
            (kv.1, im_alm_of (fun l2 m2 =>
              seriesGet (cmplx_map_2_full_alm map2alm res lmax) (l2, m2))
              kv.1.1 kv.1.2))).map Prod.snd)
        = (getlm lmax).map fun p =>
            im_alm_of (fun l2 m2 =>
              seriesGet (cmplx_map_2_full_alm map2alm res lmax) (l2, m2))
              p.1 ((p.2 : ℕ) : ℤ) :=
      analyze_half_array map2alm res lmax fun k =>
        im_alm_of (fun l2 m2 =>
          seriesGet (cmplx_map_2_full_alm map2alm res lmax) (l2, m2)) k.1 k.2
    rw [h1]
    refine List.map_congr_left ?_
    intro p hp
    rcases p with ⟨l2, m2⟩
    rcases mem_getlm.1 hp with ⟨hml2, hl2⟩
    exact im_alm_of_analyze hml2 hl2 fun hz => by
      subst hz
      exact hm0 l2 hl2
  rw [hunfold, harr_re, harr_im, hbandr, hbandi]
  exact zipWith_mk_map res

/-- Concrete instance of C1: the one-pixel map `2 + 3j` on a one-pixel sky at
lmax 0, with the toy primitive pair (which is exactly inverse there), round
trips exactly. -/
theorem c1_round_trip_witness :
    full_alm_2_cmplx_map toyS
        (cmplx_map_2_full_alm toyT ([⟨RVal.fin 2, RVal.fin 3⟩] : List CVal) 0)
        (some 1) (some 0)
      = ([⟨RVal.fin 2, RVal.fin 3⟩] : List CVal).map CVal.toCx :=
  c1_round_trip toyT toyS ([⟨RVal.fin 2, RVal.fin 3⟩] : List CVal) 0 1
    (by decide)
    (fun l2 _ => ⟨rfl, rfl⟩)
    (by
      have hg : getlm 0 = [(0, 0)] := rfl
      rw [hg]
      norm_num [toyS, toyT, unmaskedSum, buildMask, isnanC, RVal.isnan, RVal.rat])
    (by
      have hg : getlm 0 = [(0, 0)] := rfl
      rw [hg]
      norm_num [toyS, toyT, unmaskedSum, buildMask, isnanC, RVal.isnan, RVal.rat])
